import Mathlib

/-!
A verification development for the httm repository's hard-engineering core:
the roll-forward engine (`src/exec/roll_forward.rs`), mount discovery
(`src/parse_mounts.rs`) and the last-in-time version lookup
(`src/lookup/last_in_time.rs`).

Modelling conventions.
* A filesystem path is modelled as its list of components (`FsPath`), matching
  `std::path::Path::components`; `Path::strip_prefix` is component-wise.
  Where the Rust code operates on the *string* form of a path (for example the
  substring test in `parse_from_proc_mounts`), the model uses `String`.
* External state (does a path exist on disk, what did `remove_recursive`
  return, what did a guard-snapshot command return) is passed in explicitly,
  either as a boolean/`Except` outcome or as a predicate argument.
* Machine integers (`u64` seconds/nanoseconds, sizes, inode numbers) are
  modelled as `Nat`: the code only parses, compares and counts them, so no
  overflow behaviour is observable.
* `hashbrown::HashMap` has no meaningful iteration order; a map built by
  grouping is modelled as an association list whose per-key value lists are in
  insertion order, while the order of the keys themselves is arbitrary.
-/

/-! ## Path model and small utilities -/

/-- A filesystem path, as its list of components. -/
abbrev FsPath := List String

/-- Component-wise prefix removal, the model of `Path::strip_prefix`:
`dropPre pre p = some rest` iff `p = pre ++ rest`. -/
def dropPre : List String → List String → Option (List String)
  | [], p => some p
  | _ :: _, [] => none
  | a :: as, b :: bs => if a = b then dropPre as bs else none

/-- The model of `Ord::cmp` on unsigned machine integers. -/
def natCmp (a b : Nat) : Ordering :=
  if a < b then .lt else if b < a then .gt else .eq

/-- Boolean list-prefix test on characters. -/
def listIsPre : List Char → List Char → Bool
  | [], _ => true
  | _ :: _, [] => false
  | a :: as, b :: bs => a = b && listIsPre as bs

/-- Boolean list-infix test on characters. -/
def listIsInf (needle : List Char) : List Char → Bool
  | [] => needle.isEmpty
  | b :: bs => listIsPre needle (b :: bs) || listIsInf needle bs

/-- The model of `str::contains` for a string pattern: substring containment
on the underlying character lists. -/
def strContains (hay needle : String) : Bool :=
  listIsInf needle.data hay.data

/-- The model of `str::split_once` at a single character: split at the first
occurrence, returning the parts before and after it. -/
def splitOnceCh (c : Char) : List Char → Option (List Char × List Char)
  | [] => none
  | x :: xs =>
    if x = c then some ([], xs)
    else (splitOnceCh c xs).map (fun p => (x :: p.1, p.2))

/-- Is an `Except` an error? -/
def exceptIsErr {ε α : Type} : Except ε α → Bool
  | .error _ => true
  | .ok _ => false

/-- The ZFS hidden snapshot directory `.zfs/snapshot`, in path-component
form.  The constant itself lives in the crate root (outside `src/`); the
spec fixes its value: "ZFS snapshots: `<mount>/.zfs/snapshot/<snap_name>`". -/
def ZFS_SNAPSHOT_DIRECTORY : List String := [".zfs", "snapshot"]

/-- The ZFS hidden snapshot directory as the string searched for by
`parse_from_proc_mounts`' substring filter. -/
def ZFS_SNAPSHOT_DIR_STR : String := ".zfs/snapshot"

/-! ## Data model of the roll-forward engine (`src/exec/roll_forward.rs`) -/

/-- The struct `DiffTime { secs, nanos }`, the parsed `zfs diff -t`
timestamp. -/
structure DiffTime where
  secs : Nat
  nanos : Nat
deriving DecidableEq, Repr

/-- The model of `DiffTime::cmp` (roll_forward.rs lines 86-97): compare
seconds; on equality compare nanoseconds. -/
def DiffTime.cmp (a b : DiffTime) : Ordering :=
  let secs_ordering := natCmp a.secs b.secs
  if secs_ordering = .eq then natCmp a.nanos b.nanos
  else secs_ordering

/-- The enum `DiffType`: the four `zfs diff` event kinds; `Renamed` carries
the new file name. -/
inductive DiffType where
  | Removed : DiffType
  | Created : DiffType
  | Modified : DiffType
  | Renamed : FsPath → DiffType
deriving DecidableEq, Repr

/-- The struct `DiffEvent { path_buf, diff_type, time }`. -/
structure DiffEvent where
  path_buf : FsPath
  diff_type : DiffType
  time : DiffTime
deriving DecidableEq, Repr

/-- The struct `PathMetadata { size, modify_time }` as used by the version
lookup; the modify time is modelled as a `Nat` instant. -/
structure PathMetadata where
  modify_time : Nat
  size : Nat
deriving DecidableEq, Repr

/-- The struct `PathData { path_buf, metadata }`; `metadata = none` is a
phantom. -/
structure PathData where
  path_buf : FsPath
  metadata : Option PathMetadata
deriving DecidableEq, Repr

/-- Modelled from the spec: `PathData::relative_path` lives in
`src/data/paths.rs`, which is not part of this source tree.  Spec 4.D fixes
it: "compute `relative = query.strip_prefix(proximate_mount)`". -/
def PathData.relative_path (pd : PathData) (mount : FsPath) : Option FsPath :=
  dropPre mount pd.path_buf

/-- The `RollForward` engine state: dataset name, snapshot name and the
proximate dataset mount (the `roll_config` field carries only UI state and is
omitted). -/
structure RollForward where
  dataset_name : String
  snap_name : String
  proximate_dataset_mount : FsPath

/-- The model of `RollForward::snap_path` (lines 427-443): translate a live
path to its snapshot-side path by re-rooting its mount-relative part under
`<mount>/.zfs/snapshot/<snap_name>`. -/
def RollForward.snap_path (rf : RollForward) (path : FsPath) : Option FsPath :=
  (PathData.relative_path ⟨path, none⟩ rf.proximate_dataset_mount).map
    (fun relative_path =>
      rf.proximate_dataset_mount ++ ZFS_SNAPSHOT_DIRECTORY ++
        [rf.snap_name] ++ relative_path)

/-- The model of `RollForward::live_path` (lines 329-340): strip the mount,
then the hidden snapshot directory, then the snapshot name, and re-root the
remainder under the mount. -/
def RollForward.live_path (rf : RollForward) (snap_path : FsPath) : Option FsPath :=
  (dropPre rf.proximate_dataset_mount snap_path).bind fun p1 =>
    (dropPre ZFS_SNAPSHOT_DIRECTORY p1).bind fun p2 =>
      (dropPre [rf.snap_name] p2).map fun relative_path =>
        rf.proximate_dataset_mount ++ relative_path

/-! ## `RollForward::exec` control flow (lines 150-181)

The reconciliation itself, the guard snapshots and the rollback are external
effects; their outcomes are inputs to the model.  The model records which
guard/rollback actions were performed, in order, and the final outcome. -/

/-- Observable guard actions of one `RollForward::exec` run. -/
inductive GuardEvent where
  | preGuardAcquired : GuardEvent
  | rollbackInvoked : GuardEvent
  | postGuardAcquired : GuardEvent
deriving DecidableEq, Repr

/-- The final outcome of `RollForward::exec`: a normal return of `Ok`, a
propagated error (`?`), or a `std::process::exit` with the given code. -/
inductive ExecOutcome where
  | ok : ExecOutcome
  | err : String → ExecOutcome
  | exited : Nat → ExecOutcome
deriving DecidableEq, Repr

/-- Outcomes of the externally-effectful steps of `RollForward::exec`. -/
structure ExecEnv where
  has_root : Bool
  pre_guard : Except String Unit
  reconcile : Except String Unit
  rollback : Except String Unit
  post_guard : Except String Unit

/-- The model of `RollForward::exec` (lines 150-181): check effective root,
acquire the pre-guard snapshot, run `roll_forward`; on its failure invoke the
guard's rollback and, if rollback succeeded, `exit(1)` (a rollback failure is
propagated as an error by `?`); on success acquire the post-guard snapshot. -/
def RollForward.exec (env : ExecEnv) : List GuardEvent × ExecOutcome :=
  if !env.has_root then
    ([], .err "Superuser privileges are require to execute.")
  else
    match env.pre_guard with
    | .error e => ([], .err e)
    | .ok () =>
      match env.reconcile with
      | .ok () =>
        match env.post_guard with
        | .ok () => ([.preGuardAcquired, .postGuardAcquired], .ok)
        | .error e => ([.preGuardAcquired], .err e)
      | .error _ =>
        match env.rollback with
        | .ok () => ([.preGuardAcquired, .rollbackInvoked], .exited 1)
        | .error e2 => ([.preGuardAcquired, .rollbackInvoked], .err e2)

/-! ## The empty-diff-stream branch of `RollForward::roll_forward`
(lines 203-213) -/

/-- The error message used when `zfs diff` produced no events and no
stderr output. -/
def noChangesMsg : String := "zfs diff reported no changes to dataset"

/-- The model of `RollForward::roll_forward`'s empty-stream branch (lines
205-213): with no diff events, read stderr; if it is empty return the fixed
"no changes" error, otherwise return an error carrying the stderr text. -/
def RollForward.emptyStreamResult (stderrMsg : String) : Except String Unit :=
  if stderrMsg = "" then .error noChangesMsg
  else .error stderrMsg

/-! ## `RollForward::remove` (lines 507-530)

`remove_recursive`'s outcome and the path's existence before/after the
deletion attempt are external inputs. -/

/-- External state seen by one `RollForward::remove` call. -/
structure RemoveEnv where
  exists_before : Bool
  rm_result : Except String Unit
  exists_after_rm : Bool

/-- Result of `RollForward::remove` together with whether the deletion
(`remove_recursive`) was attempted at all. -/
structure RemoveOut where
  result : Except String Unit
  attempted : Bool
deriving Repr

/-- The model of `RollForward::remove` (lines 507-530): return `Ok` at once
when the target does not exist; otherwise run `remove_recursive` and fail
either when it failed or when the target still exists afterwards. -/
def RollForward.remove (env : RemoveEnv) : RemoveOut :=
  if !env.exists_before then ⟨.ok (), false⟩
  else
    match env.rm_result with
    | .ok () =>
      if env.exists_after_rm then
        ⟨.error "File should not exist after deletion", true⟩
      else ⟨.ok (), true⟩
    | .error _ => ⟨.error "Could not delete file", true⟩

/-- Whether the target exists once `RollForward::remove` has returned: the
deletion attempt is made exactly when the target existed beforehand. -/
def RemoveEnv.finalEx (env : RemoveEnv) : Bool :=
  if env.exists_before then env.exists_after_rm else false

/-! ## `RollForward::diff_action` (lines 445-471)

Copying and removal are external effects; the model records the attempted
actions in order.  Existence of snapshot-side paths (`Path::exists`) is an
explicit predicate input. -/

/-- A mutating filesystem action recorded by the roll-forward engine:
`Self::copy(src, dst)` or `Self::remove(dst)`. -/
inductive FsOp where
  | copyOp : FsPath → FsPath → FsOp
  | removeOp : FsPath → FsOp
deriving DecidableEq, Repr

/-- The model of `RollForward::overwrite_or_remove` (lines 497-505): copy
when the source exists, otherwise remove the destination. -/
def RollForward.overwrite_or_remove (ex : FsPath → Bool) (src dst : FsPath) :
    List FsOp :=
  if ex src then [.copyOp src dst] else [.removeOp dst]

/-- The model of `RollForward::diff_action` (lines 445-471).  `ex` is the
`Path::exists` predicate.  `Removed`/`Modified` copy the snapshot version
over the live path; `Created` copies or removes via `overwrite_or_remove`;
`Renamed` handles the new name as `Created` and then copies the old snapshot
path back when it still exists. -/
def RollForward.diff_action (rf : RollForward) (ex : FsPath → Bool)
    (event : DiffEvent) : Except String (List FsOp) :=
  match rf.snap_path event.path_buf with
  | none => .error "Could not obtain snap file path for live version."
  | some snap_file_path =>
    match event.diff_type with
    | .Removed => .ok [.copyOp snap_file_path event.path_buf]
    | .Modified => .ok [.copyOp snap_file_path event.path_buf]
    | .Created =>
      .ok (RollForward.overwrite_or_remove ex snap_file_path event.path_buf)
    | .Renamed new_file_name =>
      match rf.snap_path new_file_name with
      | none => .error "Could not obtain snap file path for live version."
      | some snap_new_file_name =>
        .ok (RollForward.overwrite_or_remove ex snap_new_file_name
              new_file_name ++
            if ex snap_file_path then
              [.copyOp snap_file_path event.path_buf]
            else [])

/-! ## Grouping and collapsing of diff events (lines 215-262)

`into_group_map_by` pushes each event onto the `HashMap` entry of its path,
so every key holds its events in stream order; the iteration order of the
keys themselves is arbitrary (`hashbrown::HashMap`).  The model keeps the
per-key lists in occurrence order and lists the keys in some order. -/

/-- Group a list by a key: each distinct key of `l`, paired with the
sub-list of elements carrying that key, in occurrence order. -/
def groupPairsBy {α κ : Type} [DecidableEq κ] (key : α → κ) (l : List α) :
    List (κ × List α) :=
  (l.map key).dedup.map (fun k => (k, l.filter (fun x => key x = k)))

/-- The grouped diff stream `group_map` (line 218-224), keyed by
`event.path_buf`. -/
def groupMap (events : List DiffEvent) : List (FsPath × List DiffEvent) :=
  groupPairsBy (fun e => e.path_buf) events

/-- One step of Rust's `Iterator::max_by_key` fold (`cmp::max_by`): the new
element replaces the accumulator unless its key is strictly smaller. -/
def maxStep (acc y : DiffEvent) : DiffEvent :=
  if DiffTime.cmp y.time acc.time = .lt then acc else y

/-- The model of `values.iter().max_by_key(|event| event.time)` (line 258):
`none` on an empty list, otherwise the last element of maximal time. -/
def maxByTime : List DiffEvent → Option DiffEvent
  | [] => none
  | e :: es => some (es.foldl maxStep e)

/-- The model of the diff-application pipeline of `RollForward::roll_forward`
(lines 253-262): drop groups whose path is excluded, collapse each remaining
group to its latest event, skip a surviving `Renamed` event whose new name is
excluded, and apply the rest.  The source applies them with
`par_iter().try_for_each` over the `HashMap` — it performs no reordering of
the groups, so the application order is the (arbitrary) group order given. -/
def appliedEvents (groups : List (FsPath × List DiffEvent))
    (exclusions : List FsPath) : List DiffEvent :=
  ((groups.filter (fun g => !(exclusions.contains g.1))).filterMap
      (fun g => maxByTime g.2)).filter
    (fun e => match e.diff_type with
      | .Renamed new_file => !(exclusions.contains new_file)
      | _ => true)

/-! ## `HardLinkMap::new` (lines 540-599)

The recursive walk itself is directory I/O; its yield — the dir entries seen,
with their `file_type` and the inode from a `metadata()` call — is the
model's input. -/

/-- A dir entry seen by the `HardLinkMap` walk: its path, whether its
`file_type` is known and is a regular file (`entry.file_type` is an
`Option`; `none` fails the filter), and the inode of a successful
`metadata()` call (`none` models a failed stat, dropped by `filter_map`). -/
structure WalkEntry where
  path : FsPath
  is_reg_file : Bool
  opt_ino : Option Nat
deriving DecidableEq, Repr

/-- The struct `HardLinkMap { link_map: inode → entries,
remainder: paths }`. -/
structure HardLinkMap where
  link_map : List (Nat × List WalkEntry)
  remainder : List FsPath

/-- The `(ino, entry)` pairs fed into the grouping map (lines 566-581):
regular files only, with a successful `metadata()` call. -/
def inoPairs (entries : List WalkEntry) : List (Nat × WalkEntry) :=
  (entries.filter (fun e => e.is_reg_file)).filterMap
    (fun e => e.opt_ino.map (fun i => (i, e)))

/-- The model of `HardLinkMap::new` (lines 540-599): group the walked
regular files by inode, then partition — inodes owning more than one path go
to `link_map`, the paths of the rest to `remainder` (`partition` is modelled
by its two filters). -/
def HardLinkMap.build (entries : List WalkEntry) : HardLinkMap :=
  let tmp : List (Nat × List WalkEntry) :=
    (groupPairsBy Prod.fst (inoPairs entries)).map
      (fun g => (g.1, g.2.map Prod.snd))
  let link_map := tmp.filter (fun g => decide (1 < g.2.length))
  let remain_tmp := tmp.filter (fun g => !decide (1 < g.2.length))
  ⟨link_map, remain_tmp.flatMap (fun g => g.2.map (fun e => e.path))⟩

/-- Modelled: the link count of inode `i` as the number of walked
regular-file paths sharing it.  Hard links cannot cross filesystem
boundaries, so for a walk rooted at the dataset mount (or at the snapshot
root) every link of a regular file of the dataset lies under the root, and
`nlink > 1` is equivalent to the inode owning at least two walked paths. -/
def nlinkIn (entries : List WalkEntry) (i : Nat) : Nat :=
  (inoPairs entries).countP (fun p => p.1 = i)

/-! ## Mount discovery: `parse_from_proc_mounts` (parse_mounts.rs lines
48-109)

The parsed kernel mount table rows and the `Path::exists` check on mount
targets are the model's inputs.  Paths appear here in their string form,
since the source's hidden-snapshot filter is a string-containment test. -/

/-- The enum `FilesystemType`, restricted to the two variants this parser
emits. -/
inductive FilesystemType where
  | Zfs : FilesystemType
  | Btrfs : FilesystemType
deriving DecidableEq, Repr

/-- The fstype name constants. -/
def ZFS_FSTYPE : String := "zfs"

/-- The btrfs fstype name constant. -/
def BTRFS_FSTYPE : String := "btrfs"

/-- One parsed row of the kernel mount table (`proc_mounts::MountInfo`). -/
structure MountInfo where
  source : String
  dest : String
  fstype : String
  options : List String
deriving DecidableEq, Repr

/-- A discovered dataset record: mount target paired with the source-dataset
name and filesystem type. -/
abbrev DatasetRecord := String × (String × FilesystemType)

/-- The keyed mount options (lines 78-86): options containing `=`, split at
the first `=` into key/value. -/
def keyedOptions (options : List String) : List (String × String) :=
  (options.filter (fun line => line.data.contains '=')).filterMap
    (fun line => (splitOnceCh '=' line.data).map
      (fun p => (String.mk p.1, String.mk p.2)))

/-- The model of `HashMap::get` after collecting from pairs: the value of
the last pair
with the given key (later inserts overwrite earlier ones). -/
def lookupLast (pairs : List (String × String)) (k : String) : Option String :=
  ((pairs.filter (fun p => p.1 = k)).getLast?).map (fun p => p.2)

/-- The per-record classification (the match at lines 69-98).  The source's
`unreachable!()` arm — an fstype that contains but does not equal
"zfs"/"btrfs" — aborts the process; the model returns an error there. -/
def classifyMount (mi : MountInfo) : Except String DatasetRecord :=
  if mi.fstype = ZFS_FSTYPE then .ok (mi.dest, (mi.source, .Zfs))
  else if mi.fstype = BTRFS_FSTYPE then
    let subvol := (lookupLast (keyedOptions mi.options) "subvol").getD mi.source
    .ok (mi.dest, (subvol, .Btrfs))
  else .error "unreachable"

/-- The error raised when no dataset record survives the filters. -/
def noDatasetsMsg : String :=
  "httm could not find any valid datasets on the system."

/-- Fallible map over a list, aborting at the first error (the model of the
iterator map feeding the collected result when an arm can abort). -/
def mapMExcept {α β : Type} (f : α → Except String β) :
    List α → Except String (List β)
  | [] => .ok []
  | a :: as =>
    match f a with
    | .error e => .error e
    | .ok b =>
      match mapMExcept f as with
      | .error e => .error e
      | .ok bs => .ok (b :: bs)

/-- The two row filters of `parse_from_proc_mounts` (lines 59-68): keep rows
whose fstype contains "btrfs" or "zfs", then drop rows whose target contains
the hidden snapshot segment. -/
def mountFilters (mounts : List MountInfo) : List MountInfo :=
  (mounts.filter (fun mi =>
    strContains mi.fstype BTRFS_FSTYPE || strContains mi.fstype ZFS_FSTYPE)).filter
    (fun mi => !(strContains mi.dest ZFS_SNAPSHOT_DIR_STR))

/-- The model of `parse_from_proc_mounts` (lines 48-109): apply the row
filters, classify each row, keep rows whose target still exists, and fail
with the no-datasets error when nothing remains.  The `map_of_snaps`
precomputation (line 102) does not affect the returned dataset records and
is omitted; collecting into the `HashMap` keyed by the mount target does not
change which records satisfy the claimed filters. -/
def parse_from_proc_mounts (mounts : List MountInfo) (pathEx : String → Bool) :
    Except String (List DatasetRecord) :=
  match mapMExcept classifyMount (mountFilters mounts) with
  | .error e => .error e
  | .ok mapped =>
    if (mapped.filter (fun r => pathEx r.1)).isEmpty then .error noDatasetsMsg
    else .ok (mapped.filter (fun r => pathEx r.1))

/-! ## Version lookup: `LastInTimeSet::get_last_version`
(last_in_time.rs lines 70-92)

The candidates — one `PathData` per snapshot mount, statted — are the
model's input.  The `BTreeMap` keyed by `(modify_time, size)` is modelled as
a key-sorted association list with replacement on equal keys. -/

/-- Strict lexicographic order on `(modify_time, size)` keys. -/
def lexLt (a b : Nat × Nat) : Prop :=
  a.1 < b.1 ∨ (a.1 = b.1 ∧ a.2 < b.2)

/-- The derived `Ord` of the Rust key tuple `(SystemTime, u64)`:
lexicographic comparison. -/
def vkCmp (a b : Nat × Nat) : Ordering :=
  match natCmp a.1 b.1 with
  | .eq => natCmp a.2 b.2
  | o => o

/-- Sorted-association-list insert, the model of `BTreeMap` insertion: an
equal key's previous value is replaced. -/
def btreeInsert (k : Nat × Nat) (v : PathData) :
    List ((Nat × Nat) × PathData) → List ((Nat × Nat) × PathData)
  | [] => [(k, v)]
  | (k2, v2) :: rest =>
    if vkCmp k k2 = .lt then (k, v) :: (k2, v2) :: rest
    else if vkCmp k k2 = .eq then (k, v) :: rest
    else (k2, v2) :: btreeInsert k v rest

/-- The `(key, value)` pairs fed into the `BTreeMap` (lines 75-85):
candidates with metadata, keyed by `(modify_time, size)`. -/
def keyedCandidates (candidates : List PathData) :
    List ((Nat × Nat) × PathData) :=
  candidates.filterMap (fun pd =>
    pd.metadata.map (fun md => ((md.modify_time, md.size), pd)))

/-- The collected `BTreeMap` `unique_versions` (lines 75-85). -/
def uniqueVersions (candidates : List PathData) :
    List ((Nat × Nat) × PathData) :=
  (keyedCandidates candidates).foldl (fun m kv => btreeInsert kv.1 kv.2 m) []

/-- The model of `LastInTimeSet::get_last_version` (lines 70-92): the last
value of the key-sorted unique-version map. -/
def get_last_version (candidates : List PathData) : Option PathData :=
  (uniqueVersions candidates).getLast?.map (fun kv => kv.2)

/-! ## Helper lemmas about `dropPre` -/

theorem dropPre_append (xs ys : List String) : dropPre xs (xs ++ ys) = some ys := by
  induction xs with
  | nil => rfl
  | cons a as ih => simp [dropPre, ih]

theorem dropPre_eq_some {xs p r : List String} (h : dropPre xs p = some r) :
    p = xs ++ r := by
  induction xs generalizing p with
  | nil =>
    simp only [dropPre, Option.some.injEq] at h
    simpa using h
  | cons a as ih =>
    cases p with
    | nil => simp [dropPre] at h
    | cons b bs =>
      by_cases hab : a = b
      · subst hab
        simp only [dropPre, if_pos rfl] at h
        simpa using ih h
      · simp [dropPre, hab] at h

/-- Unfolding `RollForward::live_path` on a path of the snapshot-root shape
recovers the mount-rooted live path. -/
theorem live_path_round (rf : RollForward) (rel : FsPath) :
    rf.live_path (rf.proximate_dataset_mount ++
        (ZFS_SNAPSHOT_DIRECTORY ++ ([rf.snap_name] ++ rel))) =
      some (rf.proximate_dataset_mount ++ rel) := by
  unfold RollForward.live_path
  simp [dropPre_append, dropPre]

/-! ## Claim theorems -/

/-- C9: for every path under the proximate dataset mount, translating to the
snapshot side with `RollForward::snap_path` and back with
`RollForward::live_path` recovers the original path. -/
theorem claim_C9 (rf : RollForward) (p rel : FsPath)
    (h : dropPre rf.proximate_dataset_mount p = some rel) :
    ∃ sp, rf.snap_path p = some sp ∧ rf.live_path sp = some p := by
  have hp : p = rf.proximate_dataset_mount ++ rel := dropPre_eq_some h
  refine ⟨rf.proximate_dataset_mount ++
    (ZFS_SNAPSHOT_DIRECTORY ++ ([rf.snap_name] ++ rel)), ?_, ?_⟩
  · unfold RollForward.snap_path PathData.relative_path
    rw [h]
    simp
  · rw [live_path_round rf rel, hp]

/-- Witness for C9 at a concrete path under a concrete mount. -/
theorem claim_C9_witness :
    ∃ sp, RollForward.snap_path ⟨"tank/home", "snap1", ["/", "tank", "home"]⟩
        ["/", "tank", "home", "docs", "a.txt"] = some sp ∧
      RollForward.live_path ⟨"tank/home", "snap1", ["/", "tank", "home"]⟩ sp =
        some ["/", "tank", "home", "docs", "a.txt"] :=
  claim_C9 ⟨"tank/home", "snap1", ["/", "tank", "home"]⟩
    ["/", "tank", "home", "docs", "a.txt"] ["docs", "a.txt"] (by decide)

/-- C10: `RollForward::remove` returns `Ok` without attempting deletion when
the target does not exist; whenever it returns `Ok` the target no longer
exists; and it errors exactly when the target existed and either the deletion
failed or the target still exists after the attempt. -/
theorem claim_C10 (env : RemoveEnv) :
    (env.exists_before = false → RollForward.remove env = ⟨.ok (), false⟩) ∧
    ((RollForward.remove env).result = .ok () → env.finalEx = false) ∧
    (exceptIsErr (RollForward.remove env).result = true ↔
      env.exists_before = true ∧
        (exceptIsErr env.rm_result = true ∨
          (env.rm_result = .ok () ∧ env.exists_after_rm = true))) := by
  obtain ⟨b, r, a⟩ := env
  cases b <;> cases a <;>
    rcases r with e | u <;>
      simp [RollForward.remove, RemoveEnv.finalEx, exceptIsErr]

/-- Witness for C10: a non-existent target yields an immediate `Ok` with no
deletion attempt. -/
theorem claim_C10_witness :
    RollForward.remove ⟨false, .ok (), false⟩ = ⟨.ok (), false⟩ :=
  (claim_C10 ⟨false, .ok (), false⟩).1 rfl

/-- C3: with an empty `zfs diff` stream, a non-empty stderr yields a fatal
error carrying the stderr message, while an empty stderr yields the fixed
"no changes" result (itself surfaced as an `HttmError`). -/
theorem claim_C3 (stderrMsg : String) :
    (stderrMsg ≠ "" →
      RollForward.emptyStreamResult stderrMsg = .error stderrMsg) ∧
    (stderrMsg = "" →
      RollForward.emptyStreamResult stderrMsg = .error noChangesMsg) ∧
    exceptIsErr (RollForward.emptyStreamResult stderrMsg) = true := by
  refine ⟨fun h => ?_, fun h => ?_, ?_⟩
  · simp [RollForward.emptyStreamResult, h]
  · simp [RollForward.emptyStreamResult, h]
  · by_cases h : stderrMsg = "" <;>
      simp [RollForward.emptyStreamResult, h, exceptIsErr]

/-- Witness for C3 on both a non-empty and an empty stderr. -/
theorem claim_C3_witness :
    RollForward.emptyStreamResult "boom" = .error "boom" ∧
    RollForward.emptyStreamResult "" = .error noChangesMsg :=
  ⟨(claim_C3 "boom").1 (by decide), (claim_C3 "").2.1 rfl⟩

/-- C1: in `RollForward::exec`, once the pre-guard snapshot is acquired, a
failing reconciliation always invokes the guard's rollback and never returns
success (exiting with code 1 when the rollback itself succeeds), while a
successful reconciliation acquires the post-guard snapshot as the final
action when the post snapshot command succeeds. -/
theorem claim_C1 (env : ExecEnv)
    (hroot : env.has_root = true) (hpre : env.pre_guard = .ok ()) :
    (∀ e, env.reconcile = .error e →
      GuardEvent.rollbackInvoked ∈ (RollForward.exec env).1 ∧
      (env.rollback = .ok () → (RollForward.exec env).2 = .exited 1) ∧
      (RollForward.exec env).2 ≠ .ok) ∧
    (env.reconcile = .ok () → env.post_guard = .ok () →
      ((RollForward.exec env).1.getLast? = some .postGuardAcquired ∧
        (RollForward.exec env).2 = .ok)) := by
  constructor
  · intro e hrec
    rcases hrb : env.rollback with e2 | u <;>
      simp [RollForward.exec, hroot, hpre, hrec, hrb]
  · intro hrec hpost
    simp [RollForward.exec, hroot, hpre, hrec, hpost]

/-- Witness for C1: a failing reconciliation with a successful rollback ends
in exit code 1, and a fully successful run ends with the post-guard
snapshot. -/
theorem claim_C1_witness :
    (GuardEvent.rollbackInvoked ∈
        (RollForward.exec ⟨true, .ok (), .error "io", .ok (), .ok ()⟩).1 ∧
      (RollForward.exec ⟨true, .ok (), .error "io", .ok (), .ok ()⟩).2 =
        .exited 1) ∧
    (RollForward.exec ⟨true, .ok (), .ok (), .ok (), .ok ()⟩).1.getLast? =
      some .postGuardAcquired := by
  have h1 := (claim_C1 ⟨true, .ok (), .error "io", .ok (), .ok ()⟩ rfl rfl).1
    "io" rfl
  have h2 := (claim_C1 ⟨true, .ok (), .ok (), .ok (), .ok ()⟩ rfl rfl).2
    rfl rfl
  exact ⟨⟨h1.1, h1.2.1 rfl⟩, h2.1⟩

/-- C5: the actions of `RollForward::diff_action` per surviving event kind:
`Removed`/`Modified` copy the snapshot version over the live path; `Created`
copies when the snapshot path exists and otherwise removes the live path;
`Renamed` treats the new path as `Created` and then copies back the old
snapshot path when it still exists. -/
theorem claim_C5 (rf : RollForward) (ex : FsPath → Bool) (p sp : FsPath)
    (t : DiffTime) (h : rf.snap_path p = some sp) :
    (rf.diff_action ex ⟨p, .Removed, t⟩ = .ok [.copyOp sp p]) ∧
    (rf.diff_action ex ⟨p, .Modified, t⟩ = .ok [.copyOp sp p]) ∧
    (rf.diff_action ex ⟨p, .Created, t⟩ =
      .ok (if ex sp then [.copyOp sp p] else [.removeOp p])) ∧
    (∀ np spn, rf.snap_path np = some spn →
      rf.diff_action ex ⟨p, .Renamed np, t⟩ =
        .ok ((if ex spn then [.copyOp spn np] else [.removeOp np]) ++
          if ex sp then [.copyOp sp p] else [])) := by
  refine ⟨?_, ?_, ?_, fun np spn hn => ?_⟩ <;>
    simp [RollForward.diff_action, RollForward.overwrite_or_remove, h]
  simp [hn]

/-- Witness for C5: a `Created` event whose snapshot path exists is resolved
by a copy from the snapshot. -/
theorem claim_C5_witness :
    RollForward.diff_action ⟨"tank", "s", ["/", "tank"]⟩ (fun _ => true)
        ⟨["/", "tank", "f"], .Created, ⟨0, 0⟩⟩ =
      .ok [.copyOp ["/", "tank", ".zfs", "snapshot", "s", "f"]
        ["/", "tank", "f"]] := by
  have h := (claim_C5 ⟨"tank", "s", ["/", "tank"]⟩ (fun _ => true)
    ["/", "tank", "f"] ["/", "tank", ".zfs", "snapshot", "s", "f"] ⟨0, 0⟩
    (by decide)).2.2.1
  simpa using h

/-! ## Helper lemmas about `DiffTime::cmp` and `max_by_key` -/

theorem timeCmp_lt_iff (a b : DiffTime) :
    DiffTime.cmp a b = .lt ↔
      a.secs < b.secs ∨ (a.secs = b.secs ∧ a.nanos < b.nanos) := by
  simp only [DiffTime.cmp, natCmp]
  by_cases h1 : a.secs < b.secs <;> by_cases h2 : b.secs < a.secs <;>
    by_cases h3 : a.nanos < b.nanos <;> by_cases h4 : b.nanos < a.nanos <;>
      simp [h1, h2, h3, h4] <;> omega

theorem timeCmp_gt_iff (a b : DiffTime) :
    DiffTime.cmp a b = .gt ↔
      b.secs < a.secs ∨ (a.secs = b.secs ∧ b.nanos < a.nanos) := by
  simp only [DiffTime.cmp, natCmp]
  by_cases h1 : a.secs < b.secs <;> by_cases h2 : b.secs < a.secs <;>
    by_cases h3 : a.nanos < b.nanos <;> by_cases h4 : b.nanos < a.nanos <;>
      simp [h1, h2, h3, h4] <;> omega

theorem timeCmp_eq_iff (a b : DiffTime) :
    DiffTime.cmp a b = .eq ↔ a = b := by
  obtain ⟨s1, n1⟩ := a
  obtain ⟨s2, n2⟩ := b
  simp only [DiffTime.cmp, natCmp, DiffTime.mk.injEq]
  by_cases h1 : s1 < s2 <;> by_cases h2 : s2 < s1 <;>
    by_cases h3 : n1 < n2 <;> by_cases h4 : n2 < n1 <;>
      simp [h1, h2, h3, h4] <;> omega

theorem timeCmp_ne_gt_iff (a b : DiffTime) :
    DiffTime.cmp a b ≠ .gt ↔
      a.secs < b.secs ∨ (a.secs = b.secs ∧ a.nanos ≤ b.nanos) := by
  rw [Ne, timeCmp_gt_iff]
  omega

theorem timeLe_trans {a b c : DiffTime} (h1 : DiffTime.cmp a b ≠ .gt)
    (h2 : DiffTime.cmp b c ≠ .gt) : DiffTime.cmp a c ≠ .gt := by
  rw [timeCmp_ne_gt_iff] at h1 h2 ⊢
  omega

theorem timeLe_refl (a : DiffTime) : DiffTime.cmp a a ≠ .gt := by
  rw [timeCmp_ne_gt_iff]
  omega

theorem foldl_maxStep_spec (es : List DiffEvent) (acc : DiffEvent) :
    (es.foldl maxStep acc = acc ∨ es.foldl maxStep acc ∈ es) ∧
    DiffTime.cmp acc.time (es.foldl maxStep acc).time ≠ .gt ∧
    ∀ e ∈ es, DiffTime.cmp e.time (es.foldl maxStep acc).time ≠ .gt := by
  induction es generalizing acc with
  | nil => exact ⟨Or.inl rfl, timeLe_refl _, by simp⟩
  | cons y ys ih =>
    obtain ⟨hmem, haccle, hall⟩ := ih (maxStep acc y)
    have hstep_cases : maxStep acc y = acc ∨ maxStep acc y = y := by
      unfold maxStep
      split <;> simp
    have hacc_step : DiffTime.cmp acc.time (maxStep acc y).time ≠ .gt := by
      unfold maxStep
      split
      · exact timeLe_refl _
      · rename_i h
        rw [timeCmp_lt_iff] at h
        rw [timeCmp_ne_gt_iff]
        omega
    have hy_step : DiffTime.cmp y.time (maxStep acc y).time ≠ .gt := by
      unfold maxStep
      split
      · rename_i h
        rw [timeCmp_lt_iff] at h
        rw [timeCmp_ne_gt_iff]
        omega
      · exact timeLe_refl _
    simp only [List.foldl_cons]
    refine ⟨?_, timeLe_trans hacc_step haccle, ?_⟩
    · rcases hmem with h | h
      · rcases hstep_cases with h2 | h2
        · exact Or.inl (h.trans h2)
        · right
          rw [h, h2]
          exact List.mem_cons_self y ys
      · exact Or.inr (List.mem_cons_of_mem y h)
    · intro e he
      rcases List.mem_cons.mp he with rfl | he2
      · exact timeLe_trans hy_step haccle
      · exact hall e he2

theorem maxByTime_spec {es : List DiffEvent} {m : DiffEvent}
    (h : maxByTime es = some m) :
    m ∈ es ∧ ∀ e ∈ es, DiffTime.cmp e.time m.time ≠ .gt := by
  cases es with
  | nil => simp [maxByTime] at h
  | cons e0 rest =>
    simp only [maxByTime, Option.some.injEq] at h
    obtain ⟨hmem, hacc, hall⟩ := foldl_maxStep_spec rest e0
    subst h
    refine ⟨?_, ?_⟩
    · rcases hmem with h2 | h2
      · rw [h2]; exact List.mem_cons_self e0 rest
      · exact List.mem_cons_of_mem e0 h2
    · intro e he
      rcases List.mem_cons.mp he with rfl | he2
      · exact hacc
      · exact hall e he2

/-! ## Helper lemmas about `groupPairsBy` -/

theorem groupPairsBy_mem {α κ : Type} [DecidableEq κ] {key : α → κ}
    {l : List α} {k : κ} {es : List α}
    (h : (k, es) ∈ groupPairsBy key l) :
    es = l.filter (fun x => key x = k) ∧ k ∈ l.map key := by
  unfold groupPairsBy at h
  simp only [List.mem_map] at h
  obtain ⟨k2, hk2, heq⟩ := h
  obtain ⟨hkk, hes⟩ := Prod.mk.injEq .. ▸ heq
  subst hkk
  exact ⟨hes.symm, List.mem_dedup.mp hk2⟩

theorem groupPairsBy_self_mem {α κ : Type} [DecidableEq κ] {key : α → κ}
    {l : List α} {x : α} (h : x ∈ l) :
    (key x, l.filter (fun y => key y = key x)) ∈ groupPairsBy key l := by
  unfold groupPairsBy
  simp only [List.mem_map]
  exact ⟨key x, List.mem_dedup.mpr (List.mem_map_of_mem key h), rfl⟩

theorem groupPairsBy_group_ne_nil {α κ : Type} [DecidableEq κ] {key : α → κ}
    {l : List α} {k : κ} {es : List α}
    (h : (k, es) ∈ groupPairsBy key l) : es ≠ [] := by
  obtain ⟨hes, hk⟩ := groupPairsBy_mem h
  obtain ⟨x, hx, hkey⟩ := List.mem_map.mp hk
  intro hnil
  have : x ∈ l.filter (fun y => key y = k) :=
    List.mem_filter.mpr ⟨hx, by simp [hkey]⟩
  rw [← hes] at this
  simp [hnil] at this

/-! ## Claim theorems for grouping and collapsing -/

/-- C4: in any group of the collapsed diff stream, all events share the
group's path, the collapse keeps exactly the `max_by_key(time)` survivor — a
member of the group of maximal time — and `DiffTime::cmp` is the total
lexicographic order on `(secs, nanos)`. -/
theorem claim_C4 (evs : List DiffEvent) (k : FsPath) (es : List DiffEvent)
    (hmem : (k, es) ∈ groupMap evs) :
    (∃ m, maxByTime es = some m ∧ m ∈ es ∧ m.path_buf = k ∧
      (∀ e ∈ es, e.path_buf = k) ∧
      ∀ e ∈ es, DiffTime.cmp e.time m.time ≠ .gt) ∧
    (∀ a b : DiffTime,
      (DiffTime.cmp a b = .lt ↔
        a.secs < b.secs ∨ (a.secs = b.secs ∧ a.nanos < b.nanos)) ∧
      (DiffTime.cmp a b = .eq ↔ a = b) ∧
      (DiffTime.cmp a b = .gt ↔ DiffTime.cmp b a = .lt)) := by
  constructor
  · obtain ⟨hes, _⟩ := groupPairsBy_mem hmem
    have hne := groupPairsBy_group_ne_nil hmem
    have hpaths : ∀ e ∈ es, e.path_buf = k := by
      intro e he
      rw [hes] at he
      have := List.mem_filter.mp he
      simpa using this.2
    obtain ⟨e0, rest, rfl⟩ : ∃ e0 rest, es = e0 :: rest := by
      cases es with
      | nil => exact absurd rfl hne
      | cons a b => exact ⟨a, b, rfl⟩
    obtain ⟨hm_mem, hm_max⟩ :=
      @maxByTime_spec (e0 :: rest) (rest.foldl maxStep e0) rfl
    exact ⟨rest.foldl maxStep e0, rfl, hm_mem,
      hpaths _ hm_mem, hpaths, hm_max⟩
  · intro a b
    refine ⟨timeCmp_lt_iff a b, timeCmp_eq_iff a b, ?_⟩
    rw [timeCmp_gt_iff, timeCmp_lt_iff]
    omega

/-- Witness for C4 on a two-event group over one path. -/
theorem claim_C4_witness :
    ∃ m, maxByTime ([⟨["a"], .Created, ⟨1, 0⟩⟩,
        ⟨["a"], .Modified, ⟨2, 0⟩⟩] : List DiffEvent) = some m ∧
      m ∈ ([⟨["a"], .Created, ⟨1, 0⟩⟩,
        ⟨["a"], .Modified, ⟨2, 0⟩⟩] : List DiffEvent) ∧
      m.path_buf = ["a"] ∧
      (∀ e ∈ ([⟨["a"], .Created, ⟨1, 0⟩⟩,
        ⟨["a"], .Modified, ⟨2, 0⟩⟩] : List DiffEvent), e.path_buf = ["a"]) ∧
      ∀ e ∈ ([⟨["a"], .Created, ⟨1, 0⟩⟩,
        ⟨["a"], .Modified, ⟨2, 0⟩⟩] : List DiffEvent),
        DiffTime.cmp e.time m.time ≠ .gt :=
  (claim_C4 [⟨["a"], .Created, ⟨1, 0⟩⟩, ⟨["a"], .Modified, ⟨2, 0⟩⟩] ["a"]
    [⟨["a"], .Created, ⟨1, 0⟩⟩, ⟨["a"], .Modified, ⟨2, 0⟩⟩] (by decide)).1

/-- C2 (code evaluation at the failing input): the diff-application pipeline
of `roll_forward` performs no sort by component count, so with the group map
iterated parent-first — a legitimate `HashMap` order — the parent directory's
event is applied before its descendant's, violating the claimed
children-before-parents order. -/
theorem claim_C2_code_eval :
    appliedEvents
        (groupMap [⟨["tank"], .Modified, ⟨1, 0⟩⟩,
          ⟨["tank", "a"], .Modified, ⟨1, 0⟩⟩]) [] =
      [⟨["tank"], .Modified, ⟨1, 0⟩⟩, ⟨["tank", "a"], .Modified, ⟨1, 0⟩⟩] ∧
    dropPre ["tank"] ["tank", "a"] = some ["a"] ∧
    (["tank"] : FsPath).length < (["tank", "a"] : FsPath).length := by
  decide

/-! ## Helper lemmas about `HardLinkMap.build` -/

theorem build_link_map (entries : List WalkEntry) :
    (HardLinkMap.build entries).link_map =
      ((groupPairsBy Prod.fst (inoPairs entries)).map
          (fun g => (g.1, g.2.map Prod.snd))).filter
        (fun g => decide (1 < g.2.length)) := rfl

theorem build_remainder (entries : List WalkEntry) :
    (HardLinkMap.build entries).remainder =
      (((groupPairsBy Prod.fst (inoPairs entries)).map
          (fun g => (g.1, g.2.map Prod.snd))).filter
        (fun g => !decide (1 < g.2.length))).flatMap
        (fun g => g.2.map (fun e => e.path)) := rfl

theorem nlinkIn_eq_group_length (entries : List WalkEntry) (i : Nat) :
    nlinkIn entries i =
      ((inoPairs entries).filter (fun y => Prod.fst y = i)).length := by
  unfold nlinkIn
  rw [List.countP_eq_length_filter]

/-- C6: every `link_map` group of a built `HardLinkMap` has at least two
entries, and every walked regular file goes to `link_map` under its inode
when its link count exceeds one and to `remainder` when its link count is
one. -/
theorem claim_C6 (entries : List WalkEntry) :
    (∀ g ∈ (HardLinkMap.build entries).link_map, 2 ≤ g.2.length) ∧
    (∀ i e, (i, e) ∈ inoPairs entries →
      (1 < nlinkIn entries i →
        ∃ es, (i, es) ∈ (HardLinkMap.build entries).link_map ∧ e ∈ es) ∧
      (nlinkIn entries i = 1 →
        e.path ∈ (HardLinkMap.build entries).remainder)) := by
  constructor
  · intro g hg
    rw [build_link_map] at hg
    have h2 := (List.mem_filter.mp hg).2
    have h3 := of_decide_eq_true h2
    omega
  · intro i e hmem
    have hself := @groupPairsBy_self_mem (Nat × WalkEntry) Nat _
      Prod.fst (inoPairs entries) (i, e) hmem
    have htmp : (i, ((inoPairs entries).filter
        (fun y => Prod.fst y = i)).map Prod.snd) ∈
          (groupPairsBy Prod.fst (inoPairs entries)).map
            (fun g => (g.1, g.2.map Prod.snd)) :=
      List.mem_map_of_mem (fun g => (g.1, g.2.map Prod.snd)) hself
    have hlen : (((inoPairs entries).filter
        (fun y => Prod.fst y = i)).map Prod.snd).length = nlinkIn entries i := by
      rw [List.length_map, nlinkIn_eq_group_length]
    have hein : e ∈ ((inoPairs entries).filter
        (fun y => Prod.fst y = i)).map Prod.snd := by
      refine List.mem_map.mpr ⟨(i, e), ?_, rfl⟩
      exact List.mem_filter.mpr ⟨hmem, by simp⟩
    constructor
    · intro hlink
      refine ⟨((inoPairs entries).filter
        (fun y => Prod.fst y = i)).map Prod.snd, ?_, hein⟩
      rw [build_link_map]
      refine List.mem_filter.mpr ⟨htmp, ?_⟩
      simp only [decide_eq_true_eq]
      omega
    · intro hone
      rw [build_remainder]
      refine List.mem_flatMap.mpr ⟨(i, ((inoPairs entries).filter
        (fun y => Prod.fst y = i)).map Prod.snd), ?_, ?_⟩
      · refine List.mem_filter.mpr ⟨htmp, ?_⟩
        simp only [Bool.not_eq_true', decide_eq_false_iff_not]
        omega
      · exact List.mem_map.mpr ⟨e, hein, rfl⟩

/-- Witness for C6: two paths on inode 7 land in `link_map`; the single path
on inode 9 lands in `remainder`. -/
theorem claim_C6_witness :
    (∃ es, (7, es) ∈ (HardLinkMap.build [⟨["a"], true, some 7⟩,
        ⟨["b"], true, some 7⟩, ⟨["c"], true, some 9⟩]).link_map ∧
      (⟨["a"], true, some 7⟩ : WalkEntry) ∈ es) ∧
    (["c"] : FsPath) ∈ (HardLinkMap.build [⟨["a"], true, some 7⟩,
      ⟨["b"], true, some 7⟩, ⟨["c"], true, some 9⟩]).remainder := by
  have h1 := ((claim_C6 [⟨["a"], true, some 7⟩, ⟨["b"], true, some 7⟩,
    ⟨["c"], true, some 9⟩]).2 7 ⟨["a"], true, some 7⟩ (by decide)).1 (by decide)
  have h2 := ((claim_C6 [⟨["a"], true, some 7⟩, ⟨["b"], true, some 7⟩,
    ⟨["c"], true, some 9⟩]).2 9 ⟨["c"], true, some 9⟩ (by decide)).2 (by decide)
  exact ⟨h1, h2⟩

/-! ## Helper lemmas about mount discovery -/

theorem mapMExcept_mem {α β : Type} {f : α → Except String β} {l : List α}
    {out : List β} (h : mapMExcept f l = .ok out) :
    ∀ b ∈ out, ∃ a ∈ l, f a = .ok b := by
  induction l generalizing out with
  | nil =>
    simp only [mapMExcept, Except.ok.injEq] at h
    subst h
    simp
  | cons a as ih =>
    simp only [mapMExcept] at h
    rcases hfa : f a with e | b0 <;> rw [hfa] at h
    · cases h
    · rcases hrest : mapMExcept f as with e | bs <;> rw [hrest] at h
      · cases h
      · simp only [Except.ok.injEq] at h
        subst h
        intro b hb
        rcases List.mem_cons.mp hb with rfl | hb2
        · exact ⟨a, List.mem_cons_self a as, hfa⟩
        · obtain ⟨a2, ha2, hfa2⟩ := ih hrest b hb2
          exact ⟨a2, List.mem_cons_of_mem a ha2, hfa2⟩

theorem classifyMount_ok {mi : MountInfo} {r : DatasetRecord}
    (h : classifyMount mi = .ok r) :
    r.1 = mi.dest ∧ (r.2.2 = .Zfs ∨ r.2.2 = .Btrfs) := by
  unfold classifyMount at h
  by_cases h1 : mi.fstype = ZFS_FSTYPE
  · rw [if_pos h1] at h
    cases h
    simp
  · rw [if_neg h1] at h
    by_cases h2 : mi.fstype = BTRFS_FSTYPE
    · rw [if_pos h2] at h
      cases h
      simp
    · rw [if_neg h2] at h
      cases h

/-- C7: whenever mount discovery succeeds, it returns a non-empty list of
records that are all zfs or btrfs, whose target does not contain the hidden
snapshot segment, and whose target still exists; and when all surviving rows
classify but none remains after the existence filter, it fails with the
no-datasets-found error. -/
theorem claim_C7 (mounts : List MountInfo) (pathEx : String → Bool) :
    (∀ l, parse_from_proc_mounts mounts pathEx = .ok l →
      l ≠ [] ∧ ∀ r ∈ l,
        (r.2.2 = .Zfs ∨ r.2.2 = .Btrfs) ∧
        strContains r.1 ZFS_SNAPSHOT_DIR_STR = false ∧
        pathEx r.1 = true) ∧
    (∀ ml, mapMExcept classifyMount (mountFilters mounts) = .ok ml →
      ml.filter (fun r => pathEx r.1) = [] →
      parse_from_proc_mounts mounts pathEx = .error noDatasetsMsg) := by
  constructor
  · intro l hl
    unfold parse_from_proc_mounts at hl
    split at hl
    · cases hl
    · rename_i ml hm
      by_cases hempty : (ml.filter (fun r => pathEx r.1)).isEmpty
      · rw [if_pos hempty] at hl
        cases hl
      · rw [if_neg hempty] at hl
        cases Except.ok.inj hl
        refine ⟨by simpa using hempty, ?_⟩
        intro r hr
        have hr2 := List.mem_filter.mp hr
        obtain ⟨mi, hmi, hcls⟩ := mapMExcept_mem hm r hr2.1
        have hmi2 := List.mem_filter.mp hmi
        obtain ⟨hdest, hfs⟩ := classifyMount_ok hcls
        refine ⟨hfs, ?_, by simpa using hr2.2⟩
        rw [hdest]
        simpa using hmi2.2
  · intro ml hm hempty
    simp [parse_from_proc_mounts, hm, hempty]

/-- Witness for C7: one existing zfs mount is discovered; with no surviving
rows the no-datasets error is raised. -/
theorem claim_C7_witness :
    (([("/", ("rpool/ROOT", FilesystemType.Zfs))] : List DatasetRecord) ≠ [] ∧
      ∀ r ∈ ([("/", ("rpool/ROOT", FilesystemType.Zfs))] : List DatasetRecord),
        (r.2.2 = .Zfs ∨ r.2.2 = .Btrfs) ∧
        strContains r.1 ZFS_SNAPSHOT_DIR_STR = false ∧
        (fun _ => true) r.1 = true) ∧
    parse_from_proc_mounts [⟨"rpool/ROOT", "/", "zfs", []⟩]
      (fun _ => false) = .error noDatasetsMsg := by
  refine ⟨(claim_C7 [⟨"rpool/ROOT", "/", "zfs", []⟩] (fun _ => true)).1
    [("/", ("rpool/ROOT", FilesystemType.Zfs))] rfl, ?_⟩
  exact (claim_C7 [⟨"rpool/ROOT", "/", "zfs", []⟩] (fun _ => false)).2
    [("/", ("rpool/ROOT", FilesystemType.Zfs))] rfl rfl

/-! ## Helper lemmas about the unique-version `BTreeMap` -/

theorem vkCmp_lt_iff (a b : Nat × Nat) : vkCmp a b = .lt ↔ lexLt a b := by
  obtain ⟨a1, a2⟩ := a
  obtain ⟨b1, b2⟩ := b
  simp only [vkCmp, natCmp, lexLt]
  by_cases h1 : a1 < b1 <;> by_cases h2 : b1 < a1 <;>
    by_cases h3 : a2 < b2 <;> by_cases h4 : b2 < a2 <;>
      simp [h1, h2, h3, h4] <;> omega

theorem vkCmp_gt_iff (a b : Nat × Nat) : vkCmp a b = .gt ↔ lexLt b a := by
  obtain ⟨a1, a2⟩ := a
  obtain ⟨b1, b2⟩ := b
  simp only [vkCmp, natCmp, lexLt]
  by_cases h1 : a1 < b1 <;> by_cases h2 : b1 < a1 <;>
    by_cases h3 : a2 < b2 <;> by_cases h4 : b2 < a2 <;>
      simp [h1, h2, h3, h4] <;> omega

theorem vkCmp_eq_iff (a b : Nat × Nat) : vkCmp a b = .eq ↔ a = b := by
  obtain ⟨a1, a2⟩ := a
  obtain ⟨b1, b2⟩ := b
  simp only [vkCmp, natCmp, Prod.mk.injEq]
  by_cases h1 : a1 < b1 <;> by_cases h2 : b1 < a1 <;>
    by_cases h3 : a2 < b2 <;> by_cases h4 : b2 < a2 <;>
      simp [h1, h2, h3, h4] <;> omega

theorem lexLt_trans {a b c : Nat × Nat} (h1 : lexLt a b) (h2 : lexLt b c) :
    lexLt a c := by
  unfold lexLt at h1 h2 ⊢
  omega

theorem lexLt_irrefl (a : Nat × Nat) : ¬ lexLt a a := by
  unfold lexLt
  omega

theorem btreeInsert_mem {k : Nat × Nat} {v : PathData}
    {m : List ((Nat × Nat) × PathData)} {kv : (Nat × Nat) × PathData}
    (h : kv ∈ btreeInsert k v m) : kv = (k, v) ∨ kv ∈ m := by
  induction m with
  | nil => simpa [btreeInsert] using h
  | cons hd rest ih =>
    obtain ⟨k2, v2⟩ := hd
    by_cases h1 : vkCmp k k2 = .lt
    · simp only [btreeInsert, if_pos h1] at h
      rcases List.mem_cons.mp h with rfl | h2
      · exact Or.inl rfl
      · exact Or.inr h2
    · by_cases h2 : vkCmp k k2 = .eq
      · simp only [btreeInsert, if_neg h1, if_pos h2] at h
        rcases List.mem_cons.mp h with rfl | h3
        · exact Or.inl rfl
        · exact Or.inr (List.mem_cons_of_mem _ h3)
      · simp only [btreeInsert, if_neg h1, if_neg h2] at h
        rcases List.mem_cons.mp h with rfl | h3
        · exact Or.inr (List.mem_cons_self _ _)
        · rcases ih h3 with h4 | h4
          · exact Or.inl h4
          · exact Or.inr (List.mem_cons_of_mem _ h4)

theorem btreeInsert_keys (k : Nat × Nat) (v : PathData)
    (m : List ((Nat × Nat) × PathData)) (k2 : Nat × Nat) :
    k2 ∈ (btreeInsert k v m).map Prod.fst ↔
      k2 = k ∨ k2 ∈ m.map Prod.fst := by
  induction m with
  | nil => simp [btreeInsert]
  | cons hd rest ih =>
    obtain ⟨kh, vh⟩ := hd
    by_cases h1 : vkCmp k kh = .lt
    · simp only [btreeInsert, if_pos h1, List.map_cons, List.mem_cons]
    · by_cases h2 : vkCmp k kh = .eq
      · have hk : k = kh := (vkCmp_eq_iff k kh).mp h2
        subst hk
        simp only [btreeInsert, if_neg h1, if_pos h2, List.map_cons,
          List.mem_cons]
        tauto
      · simp only [btreeInsert, if_neg h1, if_neg h2, List.map_cons,
          List.mem_cons, ih]
        tauto

theorem btreeInsert_sorted {k : Nat × Nat} {v : PathData}
    {m : List ((Nat × Nat) × PathData)}
    (hs : List.Pairwise (fun x y => lexLt x.1 y.1) m) :
    List.Pairwise (fun x y => lexLt x.1 y.1) (btreeInsert k v m) := by
  induction m with
  | nil => simp [btreeInsert]
  | cons hd rest ih =>
    obtain ⟨kh, vh⟩ := hd
    rw [List.pairwise_cons] at hs
    obtain ⟨hhd, hrest⟩ := hs
    by_cases h1 : vkCmp k kh = .lt
    · have hk : lexLt k kh := (vkCmp_lt_iff k kh).mp h1
      simp only [btreeInsert, if_pos h1]
      rw [List.pairwise_cons]
      refine ⟨?_, List.pairwise_cons.mpr ⟨hhd, hrest⟩⟩
      intro y hy
      rcases List.mem_cons.mp hy with rfl | hy2
      · exact hk
      · exact lexLt_trans hk (hhd y hy2)
    · by_cases h2 : vkCmp k kh = .eq
      · have hk : k = kh := (vkCmp_eq_iff k kh).mp h2
        simp only [btreeInsert, if_neg h1, if_pos h2]
        rw [List.pairwise_cons]
        refine ⟨?_, hrest⟩
        intro y hy
        exact hk ▸ hhd y hy
      · have h3 : vkCmp k kh = .gt := by
          rcases hvk : vkCmp k kh with _ | _ | _
          · exact absurd hvk h1
          · exact absurd hvk h2
          · rfl
        have hk : lexLt kh k := (vkCmp_gt_iff k kh).mp h3
        simp only [btreeInsert, if_neg h1, if_neg h2]
        rw [List.pairwise_cons]
        refine ⟨?_, ih hrest⟩
        intro y hy
        rcases btreeInsert_mem hy with rfl | hy2
        · exact hk
        · exact hhd y hy2

theorem fold_btree_sorted (l : List ((Nat × Nat) × PathData)) :
    ∀ m, List.Pairwise (fun x y => lexLt x.1 y.1) m →
      List.Pairwise (fun x y => lexLt x.1 y.1)
        (l.foldl (fun acc kv => btreeInsert kv.1 kv.2 acc) m) := by
  induction l with
  | nil => exact fun m hm => hm
  | cons hd rest ih =>
    intro m hm
    exact ih _ (btreeInsert_sorted hm)

theorem fold_btree_mem (l : List ((Nat × Nat) × PathData)) :
    ∀ m kv, kv ∈ l.foldl (fun acc kv => btreeInsert kv.1 kv.2 acc) m →
      kv ∈ m ∨ kv ∈ l := by
  induction l with
  | nil => exact fun m kv h => Or.inl h
  | cons hd rest ih =>
    intro m kv h
    rcases ih _ kv h with h2 | h2
    · rcases btreeInsert_mem h2 with h4 | h3
      · refine Or.inr ?_
        rw [h4]
        exact List.mem_cons_self hd rest
      · exact Or.inl h3
    · exact Or.inr (List.mem_cons_of_mem hd h2)

theorem fold_btree_keys (l : List ((Nat × Nat) × PathData)) :
    ∀ m k, k ∈ ((l.foldl (fun acc kv => btreeInsert kv.1 kv.2 acc) m).map
        Prod.fst) ↔
      k ∈ m.map Prod.fst ∨ k ∈ l.map Prod.fst := by
  induction l with
  | nil => simp
  | cons hd rest ih =>
    intro m k
    simp only [List.foldl_cons, ih, btreeInsert_keys, List.map_cons,
      List.mem_cons]
    tauto

theorem mem_of_getLastEq {α : Type} :
    ∀ {l : List α} {x : α}, l.getLast? = some x → x ∈ l := by
  intro l
  induction l with
  | nil => intro x h; simp at h
  | cons a rest ih =>
    intro x h
    cases rest with
    | nil =>
      simp only [List.getLast?_singleton, Option.some.injEq] at h
      subst h
      exact List.mem_cons_self a []
    | cons b bs =>
      rw [List.getLast?_cons_cons] at h
      exact List.mem_cons_of_mem a (ih h)

theorem pairwise_getLast {α : Type} {R : α → α → Prop} :
    ∀ {l : List α} {x : α}, List.Pairwise R l → l.getLast? = some x →
      ∀ y ∈ l, y = x ∨ R y x := by
  intro l
  induction l with
  | nil => intro x hp h; simp at h
  | cons a rest ih =>
    intro x hp h
    cases rest with
    | nil =>
      simp only [List.getLast?_singleton, Option.some.injEq] at h
      subst h
      intro y hy
      simp only [List.mem_singleton] at hy
      exact Or.inl hy
    | cons b bs =>
      rw [List.getLast?_cons_cons] at h
      rw [List.pairwise_cons] at hp
      obtain ⟨ha, hp2⟩ := hp
      have hx_mem : x ∈ b :: bs := mem_of_getLastEq h
      intro y hy
      rcases List.mem_cons.mp hy with rfl | hy2
      · exact Or.inr (ha x hx_mem)
      · exact ih hp2 h y hy2

theorem keyedCandidates_kv (candidates : List PathData) :
    ∀ kv ∈ keyedCandidates candidates,
      kv.2.metadata = some ⟨kv.1.1, kv.1.2⟩ := by
  intro kv hkv
  unfold keyedCandidates at hkv
  obtain ⟨pd, hpd, hf⟩ := List.mem_filterMap.mp hkv
  rcases hmd : pd.metadata with _ | md <;> rw [hmd] at hf
  · cases hf
  · simp only [Option.map_some', Option.some.injEq] at hf
    subst hf
    simp [hmd]

/-- C8: the retained unique-version map has pairwise-distinct
`(modify_time, size)` keys; its key set is exactly the key set of the
statted candidates (one survivor per key); every retained descriptor's
metadata matches its key; and `get_last_version` returns a retained version
whose modify time is greatest among all retained versions. -/
theorem claim_C8 (candidates : List PathData) :
    ((uniqueVersions candidates).map Prod.fst).Nodup ∧
    (∀ k, k ∈ (uniqueVersions candidates).map Prod.fst ↔
      k ∈ (keyedCandidates candidates).map Prod.fst) ∧
    (∀ kv ∈ uniqueVersions candidates,
      kv.2.metadata = some ⟨kv.1.1, kv.1.2⟩) ∧
    (∀ pd, get_last_version candidates = some pd →
      ∃ k, (k, pd) ∈ uniqueVersions candidates ∧
        ∀ kv ∈ uniqueVersions candidates, kv.1.1 ≤ k.1) := by
  have hsorted : List.Pairwise (fun x y => lexLt x.1 y.1)
      (uniqueVersions candidates) :=
    fold_btree_sorted (keyedCandidates candidates) [] (by simp)
  refine ⟨?_, ?_, ?_, ?_⟩
  · refine (List.pairwise_map).mpr ?_
    refine hsorted.imp ?_
    intro a b hab heq
    rw [heq] at hab
    exact lexLt_irrefl b.1 hab
  · intro k
    unfold uniqueVersions
    rw [fold_btree_keys]
    simp
  · intro kv hkv
    rcases fold_btree_mem (keyedCandidates candidates) [] kv hkv with h | h
    · simp at h
    · exact keyedCandidates_kv candidates kv h
  · intro pd hpd
    unfold get_last_version at hpd
    rcases hlast : (uniqueVersions candidates).getLast? with _ | kv <;>
      rw [hlast] at hpd
    · cases hpd
    · simp only [Option.map_some', Option.some.injEq] at hpd
      subst hpd
      refine ⟨kv.1, mem_of_getLastEq hlast, ?_⟩
      intro y hy
      rcases pairwise_getLast hsorted hlast y hy with rfl | hlt
      · exact Nat.le_refl _
      · unfold lexLt at hlt
        omega

/-- Witness for C8: of two candidates the one with the larger modify time is
returned, and it is maximal among the retained versions. -/
theorem claim_C8_witness :
    ∃ k, (k, (⟨["b"], some ⟨7, 3⟩⟩ : PathData)) ∈
        uniqueVersions [⟨["a"], some ⟨5, 10⟩⟩, ⟨["b"], some ⟨7, 3⟩⟩] ∧
      ∀ kv ∈ uniqueVersions [⟨["a"], some ⟨5, 10⟩⟩, ⟨["b"], some ⟨7, 3⟩⟩],
        kv.1.1 ≤ k.1 :=
  (claim_C8 [⟨["a"], some ⟨5, 10⟩⟩, ⟨["b"], some ⟨7, 3⟩⟩]).2.2.2
    ⟨["b"], some ⟨7, 3⟩⟩ rfl
